import Mathlib

/-!
Verification of the block-header core of mako (`src/header.c`): canonical
80-byte serialization, double-SHA256 block hashing, proof-of-work
verification, and the mining search loop.

Bytes are modelled as natural numbers (producers keep them `< 256`); byte
buffers as `List Nat`; 32-bit machine integers as `Nat` with explicit
`% 2 ^ 32` where overflow matters.  The SHA-256 compression primitive is an
external collaborator of the core, so it is kept abstract: every definition
that hashes is parameterized by a digest function `d : List Nat → List Nat`,
and a streaming hash context is the list of bytes absorbed so far (the spec
requires the hasher state to be a copyable plain value whose `final` is the
double application of SHA-256 to the absorbed stream).
-/

namespace Mako

/-- Modelled from the spec (§4.1 Codec; the body of `btc_uint32_write` lives
outside `src/`): the four little-endian bytes of a 32-bit value. -/
def le32 (v : Nat) : List Nat :=
  [v % 256, v / 256 % 256, v / 65536 % 256, v / 16777216 % 256]

/-- Value of a byte list read as a little-endian integer. -/
def leVal : List Nat → Nat
  | [] => 0
  | b :: bs => b + 256 * leVal bs

/-- Little-endian byte expansion of `v` to `k` bytes. -/
def leBytes : Nat → Nat → List Nat
  | 0, _ => []
  | k + 1, v => v % 256 :: leBytes k (v / 256)

/-- Modelled from the spec (§4.1): `write_u32` appends `v` as four
little-endian bytes and returns the advanced cursor. -/
def btc_uint32_write (zp : List Nat) (v : Nat) : List Nat :=
  zp ++ le32 v

/-- Modelled from the spec (§4.1): `write_raw` appends the bytes verbatim. -/
def btc_raw_write (zp : List Nat) (xp : List Nat) : List Nat :=
  zp ++ xp

/-- Modelled from the spec (§4.1): `read_u32` consumes four little-endian
bytes when `remaining ≥ 4`, else fails without mutation.  The reader state is
the cursor (the unread bytes) together with the remaining count. -/
def btc_uint32_read (xp : List Nat) (xn : Nat) : Option (Nat × List Nat × Nat) :=
  if xn < 4 then none
  else some (leVal (xp.take 4), xp.drop 4, xn - 4)

/-- Modelled from the spec (§4.1): `read_raw` consumes `n` raw bytes when
`remaining ≥ n`, else fails without mutation. -/
def btc_raw_read (n : Nat) (xp : List Nat) (xn : Nat) :
    Option (List Nat × List Nat × Nat) :=
  if xn < n then none
  else some (xp.take n, xp.drop n, xn - n)

/-- Modelled from the spec (§4.2 Hasher): a fresh double-SHA256 context has
absorbed no bytes. -/
def btc_hash256_init : List Nat := []

/-- Modelled from the spec (§4.2): a raw update absorbs the bytes into the
stream. -/
def btc_raw_update (ctx : List Nat) (bytes : List Nat) : List Nat :=
  ctx ++ bytes

/-- Modelled from the spec (§4.2): an integer update is sugar that absorbs
exactly the four little-endian bytes of the value. -/
def btc_uint32_update (ctx : List Nat) (v : Nat) : List Nat :=
  ctx ++ le32 v

/-- Modelled from the spec (§4.2): `final` applies SHA-256 twice to the
absorbed stream, where `d` is the external SHA-256 primitive. -/
def btc_hash256_final (d : List Nat → List Nat) (ctx : List Nat) : List Nat :=
  d (d ctx)

/-- Modelled from the spec (§4.3): three-way comparison of two 32-byte
arrays as little-endian 256-bit integers; negative / zero / positive. -/
def btc_hash_compare (a b : List Nat) : Int :=
  if leVal a < leVal b then -1
  else if leVal b < leVal a then 1
  else 0

/-- Modelled from the spec (§4.3): `compact_export` decodes a compact
(`nBits`) target.  `size = bits >> 24`, the sign flag is bit 23, the
mantissa is the low 23 bits.  Decoding fails on a zero mantissa (§8
scenario 4 has `compact_export(0x00000000)` fail, and §9 resolves the
`size = 0` open question by rejecting zero targets), on the sign flag, on
`size > 34`, and when the resulting 32-byte value would overflow 256 bits.
On success the target is written in the same byte orientation as the hash
(the chosen discipline of §4.3), i.e. little-endian here. -/
def btc_compact_export (bits : Nat) : Option (List Nat) :=
  let size := bits / 2 ^ 24
  let negative := bits / 2 ^ 23 % 2
  let mantissa := bits % 2 ^ 23
  if mantissa = 0 then none
  else if negative = 1 then none
  else if 34 < size then none
  else
    let target :=
      if 3 ≤ size then mantissa * 2 ^ (8 * (size - 3))
      else mantissa / 2 ^ (8 * (3 - size))
    if 2 ^ 256 ≤ target then none
    else some (leBytes 32 target)

/-- The header record of `header.c`: six fields, 80 serialized bytes.
`version` is `int32_t` in C but is serialized through the unsigned
little-endian writer, so it is modelled by its unsigned 32-bit image. -/
structure btc_header where
  version : Nat
  prev_block : List Nat
  merkle_root : List Nat
  time : Nat
  bits : Nat
  nonce : Nat
deriving Repr, DecidableEq

/-- `btc_header_write` (header.c:63): append the six fields in canonical
order, returning the advanced cursor. -/
def btc_header_write (zp : List Nat) (x : btc_header) : List Nat :=
  let zp := btc_uint32_write zp x.version
  let zp := btc_raw_write zp x.prev_block
  let zp := btc_raw_write zp x.merkle_root
  let zp := btc_uint32_write zp x.time
  let zp := btc_uint32_write zp x.bits
  btc_uint32_write zp x.nonce

/-- `btc_header_read` (header.c:74): parse the six fields in order; each
failing sub-read aborts, leaving the fields already parsed overwritten and
the cursor where the failure occurred.  The result is
`(ok, header, cursor, remaining)`. -/
def btc_header_read (z : btc_header) (xp : List Nat) (xn : Nat) :
    Bool × btc_header × List Nat × Nat :=
  match btc_uint32_read xp xn with
  | none => (false, z, xp, xn)
  | some (v, xp, xn) =>
    let z := { z with version := v }
    match btc_raw_read 32 xp xn with
    | none => (false, z, xp, xn)
    | some (pb, xp, xn) =>
      let z := { z with prev_block := pb }
      match btc_raw_read 32 xp xn with
      | none => (false, z, xp, xn)
      | some (mr, xp, xn) =>
        let z := { z with merkle_root := mr }
        match btc_uint32_read xp xn with
        | none => (false, z, xp, xn)
        | some (t, xp, xn) =>
          let z := { z with time := t }
          match btc_uint32_read xp xn with
          | none => (false, z, xp, xn)
          | some (b, xp, xn) =>
            let z := { z with bits := b }
            match btc_uint32_read xp xn with
            | none => (false, z, xp, xn)
            | some (nn, xp, xn) => (true, { z with nonce := nn }, xp, xn)

/-- `btc_header_hash` (header.c:97): stream the six fields through the
double-SHA256 context with the integer/raw update helpers and finalize. -/
def btc_header_hash (d : List Nat → List Nat) (hdr : btc_header) : List Nat :=
  let ctx := btc_hash256_init
  let ctx := btc_uint32_update ctx hdr.version
  let ctx := btc_raw_update ctx hdr.prev_block
  let ctx := btc_raw_update ctx hdr.merkle_root
  let ctx := btc_uint32_update ctx hdr.time
  let ctx := btc_uint32_update ctx hdr.bits
  let ctx := btc_uint32_update ctx hdr.nonce
  btc_hash256_final d ctx

/-- `btc_header_verify` (header.c:113): decode the compact target from
`bits` (failure is absorbed as false) and test hash ≤ target. -/
def btc_header_verify (d : List Nat → List Nat) (hdr : btc_header) : Bool :=
  match btc_compact_export hdr.bits with
  | none => false
  | some target =>
    decide (btc_hash_compare (btc_header_hash d hdr) target ≤ 0)

/-- The prefix context of `btc_header_mine` (header.c:141): the hasher state
after absorbing the first 76 header bytes (everything before the nonce). -/
def mine_pre (hdr : btc_header) : List Nat :=
  let pre := btc_hash256_init
  let pre := btc_uint32_update pre hdr.version
  let pre := btc_raw_update pre hdr.prev_block
  let pre := btc_raw_update pre hdr.merkle_root
  let pre := btc_uint32_update pre hdr.time
  btc_uint32_update pre hdr.bits

/-- Outcome of the mining loop.  `found`/`exhausted` are the C `return 1` /
`return 0`; `outOfFuel` is the model artifact for running the unbounded
loop out of fuel.  Each carries the header at return, the C `attempt`
counter, the number of clock queries made, and the number of hash
finalizations performed. -/
inductive MineResult where
  | found (hdr : btc_header) (attempt calls fins : Nat)
  | exhausted (hdr : btc_header) (attempt calls fins : Nat)
  | outOfFuel (hdr : btc_header) (attempt calls fins : Nat)
deriving Repr, DecidableEq

/-- The header component of a mining outcome. -/
def MineResult.header : MineResult → btc_header
  | .found h _ _ _ => h
  | .exhausted h _ _ _ => h
  | .outOfFuel h _ _ _ => h

/-- The loop of `btc_header_mine` (header.c:138-163).  `top = true` means
control is at the head of the outer `for (;;)` body: query the clock into
`time`, rebuild the 76-byte prefix context `pre`.  Each iteration forks the
prefix context, absorbs the nonce, finalizes, and compares against the
target; on failure the nonce increments modulo `2^32`, the attempt counter
advances when `limit > 0` and exhaustion returns 0, and a nonce wrap to 0
sends control back to the outer loop head.  The clock callback is modelled
as the sequence of its return values, indexed by call count; `fuel` bounds
the finalizations the model will run. -/
def mineGo (d : List Nat → List Nat) (target : List Nat) (limit : Nat)
    (adjtime : Nat → Nat) :
    Nat → Bool → List Nat → btc_header → Nat → Nat → Nat → MineResult
  | 0, _, _, hdr, attempt, calls, fins => .outOfFuel hdr attempt calls fins
  | fuel + 1, top, pre, hdr, attempt, calls, fins =>
    let hdr1 := if top then { hdr with time := adjtime calls } else hdr
    let calls1 := if top then calls + 1 else calls
    let pre1 := if top then mine_pre hdr1 else pre
    let ctx := btc_uint32_update pre1 hdr1.nonce
    let hash := btc_hash256_final d ctx
    if btc_hash_compare hash target ≤ 0 then
      .found hdr1 attempt calls1 (fins + 1)
    else
      let hdr2 := { hdr1 with nonce := (hdr1.nonce + 1) % 2 ^ 32 }
      if 0 < limit then
        if attempt + 1 = limit then
          .exhausted hdr2 (attempt + 1) calls1 (fins + 1)
        else
          mineGo d target limit adjtime fuel (hdr2.nonce == 0) pre1 hdr2
            (attempt + 1) calls1 (fins + 1)
      else
        mineGo d target limit adjtime fuel (hdr2.nonce == 0) pre1 hdr2
          attempt calls1 (fins + 1)

/-- `btc_header_mine` (header.c:126): run the search from the outer loop
head with zeroed counters. -/
def btc_header_mine (d : List Nat → List Nat) (target : List Nat)
    (limit : Nat) (adjtime : Nat → Nat) (fuel : Nat) (hdr : btc_header) :
    MineResult :=
  mineGo d target limit adjtime fuel true [] hdr 0 0 0

/-- Follows the wording of the claim (prefix consistency): the same loop as
`mineGo`, but with no carried prefix context — every attempt hashes a
prefix computed from the current fields of the header, so the prefix of
each attempt is by construction consistent with the current `time` field. -/
def mineGoSpec (d : List Nat → List Nat) (target : List Nat) (limit : Nat)
    (adjtime : Nat → Nat) :
    Nat → Bool → btc_header → Nat → Nat → Nat → MineResult
  | 0, _, hdr, attempt, calls, fins => .outOfFuel hdr attempt calls fins
  | fuel + 1, top, hdr, attempt, calls, fins =>
    let hdr1 := if top then { hdr with time := adjtime calls } else hdr
    let calls1 := if top then calls + 1 else calls
    let hash := btc_hash256_final d (btc_uint32_update (mine_pre hdr1) hdr1.nonce)
    if btc_hash_compare hash target ≤ 0 then
      .found hdr1 attempt calls1 (fins + 1)
    else
      let hdr2 := { hdr1 with nonce := (hdr1.nonce + 1) % 2 ^ 32 }
      if 0 < limit then
        if attempt + 1 = limit then
          .exhausted hdr2 (attempt + 1) calls1 (fins + 1)
        else
          mineGoSpec d target limit adjtime fuel (hdr2.nonce == 0) hdr2
            (attempt + 1) calls1 (fins + 1)
      else
        mineGoSpec d target limit adjtime fuel (hdr2.nonce == 0) hdr2
          attempt calls1 (fins + 1)

/-! ## Basic lemmas -/

lemma leVal_le32 (v : Nat) : leVal (le32 v) = v % 2 ^ 32 := by
  simp [le32, leVal]
  omega

lemma le32_length (v : Nat) : (le32 v).length = 4 := rfl

lemma take_append_of_length (l₁ l₂ : List Nat) (n : Nat) (h : l₁.length = n) :
    (l₁ ++ l₂).take n = l₁ := by
  subst h; exact List.take_left l₁ l₂

lemma drop_append_of_length (l₁ l₂ : List Nat) (n : Nat) (h : l₁.length = n) :
    (l₁ ++ l₂).drop n = l₂ := by
  subst h; exact List.drop_left l₁ l₂

lemma hash_pre_nonce (d : List Nat → List Nat) (h : btc_header) :
    btc_header_hash d h =
      btc_hash256_final d (btc_uint32_update (mine_pre h) h.nonce) := rfl

lemma mine_pre_set_nonce (h : btc_header) (x : Nat) :
    mine_pre { h with nonce := x } = mine_pre h := rfl

/-! ## C1: verify agreement -/

/-- C1: `verify(H)` is true iff `compact_export(H.bits)` succeeds with a
target `R` and `hash_compare(hash(H), R) ≤ 0`; a `compact_export` failure
is absorbed as false. -/
theorem verify_agreement (d : List Nat → List Nat) (hdr : btc_header) :
    btc_header_verify d hdr = true ↔
      ∃ R, btc_compact_export hdr.bits = some R ∧
        btc_hash_compare (btc_header_hash d hdr) R ≤ 0 := by
  unfold btc_header_verify
  cases hx : btc_compact_export hdr.bits with
  | none => simp
  | some t => simp

/-! ## C2: streaming hash equals hash of the serialization -/

/-- C2: the streaming integer/raw updates of `btc_header_hash` produce the
double-SHA256 of exactly the 80-byte buffer written by
`btc_header_write`. -/
theorem hash_is_hash_of_write (d : List Nat → List Nat) (H : btc_header)
    (hp : H.prev_block.length = 32) (hm : H.merkle_root.length = 32) :
    btc_header_hash d H = btc_hash256_final d (btc_header_write [] H) ∧
    (btc_header_write [] H).length = 80 := by
  refine ⟨rfl, ?_⟩
  simp [btc_header_write, btc_uint32_write, btc_raw_write, le32, hp, hm]

/-- Witness for C2 at a concrete header. -/
theorem hash_is_hash_of_write_witness :
    btc_header_hash (fun _ => []) ⟨1, List.replicate 32 2, List.replicate 32 3, 4, 5, 6⟩ =
      btc_hash256_final (fun _ => [])
        (btc_header_write [] ⟨1, List.replicate 32 2, List.replicate 32 3, 4, 5, 6⟩) ∧
    (btc_header_write [] ⟨1, List.replicate 32 2, List.replicate 32 3, 4, 5, 6⟩).length = 80 :=
  hash_is_hash_of_write _ _ (by simp) (by simp)

/-! ## Mining lemmas -/

lemma mineGo_eq_spec (d : List Nat → List Nat) (target : List Nat)
    (limit : Nat) (adjtime : Nat → Nat) :
    ∀ (fuel : Nat) (top : Bool) (pre : List Nat) (hdr : btc_header)
      (attempt calls fins : Nat),
      (top = true ∨ pre = mine_pre hdr) →
      mineGo d target limit adjtime fuel top pre hdr attempt calls fins =
        mineGoSpec d target limit adjtime fuel top hdr attempt calls fins := by
  intro fuel
  induction fuel with
  | zero => intro top pre hdr a c f _; rfl
  | succ fuel ih =>
    intro top pre hdr a c f hinv
    cases top with
    | true =>
      simp only [mineGo, mineGoSpec, if_true]
      split
      · rfl
      · split
        · split
          · rfl
          · exact ih _ _ _ _ _ _ (Or.inr rfl)
        · exact ih _ _ _ _ _ _ (Or.inr rfl)
    | false =>
      have hpre : pre = mine_pre hdr := by
        rcases hinv with h | h
        · exact absurd h (by simp)
        · exact h
      subst hpre
      simp only [mineGo, mineGoSpec, Bool.false_eq_true, if_false]
      split
      · rfl
      · split
        · split
          · rfl
          · exact ih _ _ _ _ _ _ (Or.inr rfl)
        · exact ih _ _ _ _ _ _ (Or.inr rfl)

lemma mineGoSpec_found (d : List Nat → List Nat) (target : List Nat)
    (limit : Nat) (adjtime : Nat → Nat) :
    ∀ (fuel : Nat) (top : Bool) (hdr : btc_header) (attempt calls fins : Nat)
      (h : btc_header) (a c f : Nat),
      mineGoSpec d target limit adjtime fuel top hdr attempt calls fins =
        .found h a c f →
      btc_hash_compare (btc_header_hash d h) target ≤ 0 := by
  intro fuel
  induction fuel with
  | zero =>
    intro top hdr a0 c0 f0 h a c f heq
    exact absurd heq (by simp [mineGoSpec])
  | succ fuel ih =>
    intro top hdr a0 c0 f0 h a c f heq
    cases top with
    | true =>
      simp only [mineGoSpec, if_true] at heq
      split at heq
      case isTrue hcmp =>
        injection heq with h1 h2 h3 h4
        subst h1
        rw [hash_pre_nonce]
        exact hcmp
      case isFalse =>
        split at heq
        · split at heq
          · cases heq
          · exact ih _ _ _ _ _ _ _ _ _ heq
        · exact ih _ _ _ _ _ _ _ _ _ heq
    | false =>
      simp only [mineGoSpec, Bool.false_eq_true, if_false] at heq
      split at heq
      case isTrue hcmp =>
        injection heq with h1 h2 h3 h4
        subst h1
        rw [hash_pre_nonce]
        exact hcmp
      case isFalse =>
        split at heq
        · split at heq
          · cases heq
          · exact ih _ _ _ _ _ _ _ _ _ heq
        · exact ih _ _ _ _ _ _ _ _ _ heq

/-! ## C3: mine success implies proof of work -/

/-- C3: if `mine(H, T, limit=0, clock)` returns true, then the header it
leaves behind — carrying the winning nonce and time, not incremented past
them — satisfies `hash_compare(hash(H), T) ≤ 0`. -/
theorem mine_success_pow (d : List Nat → List Nat) (target : List Nat)
    (adjtime : Nat → Nat) (fuel : Nat) (hdr : btc_header)
    (h : btc_header) (a c f : Nat)
    (hm : btc_header_mine d target 0 adjtime fuel hdr = .found h a c f) :
    btc_hash_compare (btc_header_hash d h) target ≤ 0 := by
  rw [btc_header_mine,
    mineGo_eq_spec d target 0 adjtime fuel true [] hdr 0 0 0 (Or.inl rfl)] at hm
  exact mineGoSpec_found d target 0 adjtime fuel true hdr 0 0 0 h a c f hm

/-- Witness for C3: with a trivial digest and an all-zero target, mining
succeeds on the first attempt and the returned header satisfies the
proof-of-work bound. -/
theorem mine_success_pow_witness :
    btc_hash_compare
      (btc_header_hash (fun _ => List.replicate 32 0)
        ⟨0, List.replicate 32 0, List.replicate 32 0, 5, 0, 0⟩)
      (List.replicate 32 0) ≤ 0 :=
  mine_success_pow (fun _ => List.replicate 32 0) (List.replicate 32 0)
    (fun _ => 5) 1 ⟨0, List.replicate 32 0, List.replicate 32 0, 0, 0, 0⟩
    ⟨0, List.replicate 32 0, List.replicate 32 0, 5, 0, 0⟩ 0 1 1 (by decide)

/-! ## C7: every attempt hashes a prefix consistent with the current time -/

/-- C7: the mining loop with its carried 76-byte prefix context equals the
loop that recomputes the prefix from the current header fields at every
attempt: on a nonce wrap to 0 the clock is re-queried, `time` is updated,
and the prefix digest is rebuilt, so every hash attempt uses a prefix
consistent with the current `time` field of the header. -/
theorem mine_pre_consistent (d : List Nat → List Nat) (target : List Nat)
    (limit : Nat) (adjtime : Nat → Nat) (fuel : Nat) (hdr : btc_header) :
    btc_header_mine d target limit adjtime fuel hdr =
      mineGoSpec d target limit adjtime fuel true hdr 0 0 0 :=
  mineGo_eq_spec d target limit adjtime fuel true [] hdr 0 0 0 (Or.inl rfl)

/-! ## C8: mining is deterministic -/

/-- C8: two runs of mine from equal headers with the same target, the same
limit, and clocks returning the same sequence of values produce identical
outcomes — same boolean, same attempt counts, and headers equal in all six
fields. -/
theorem mine_deterministic (d : List Nat → List Nat) (target : List Nat)
    (limit : Nat) (c1 c2 : Nat → Nat) (fuel : Nat) (hdr : btc_header)
    (hc : ∀ n, c1 n = c2 n) :
    btc_header_mine d target limit c1 fuel hdr =
      btc_header_mine d target limit c2 fuel hdr := by
  rw [funext hc]

/-- Witness for C8 with two syntactically distinct, pointwise-equal
clocks. -/
theorem mine_deterministic_witness :
    btc_header_mine (fun _ => [1]) (List.replicate 32 0) 2 (fun n => n) 2
        ⟨0, List.replicate 32 0, List.replicate 32 0, 0, 0, 0⟩ =
      btc_header_mine (fun _ => [1]) (List.replicate 32 0) 2 (fun n => 0 + n) 2
        ⟨0, List.replicate 32 0, List.replicate 32 0, 0, 0, 0⟩ :=
  mine_deterministic _ _ _ _ _ _ _ (fun n => (Nat.zero_add n).symm)

/-! ## C9: mine mutates only time and nonce -/

lemma mineGo_frame (d : List Nat → List Nat) (target : List Nat)
    (limit : Nat) (adjtime : Nat → Nat) :
    ∀ (fuel : Nat) (top : Bool) (pre : List Nat) (hdr : btc_header)
      (attempt calls fins : Nat),
      (mineGo d target limit adjtime fuel top pre hdr attempt calls fins).header.version
          = hdr.version ∧
      (mineGo d target limit adjtime fuel top pre hdr attempt calls fins).header.prev_block
          = hdr.prev_block ∧
      (mineGo d target limit adjtime fuel top pre hdr attempt calls fins).header.merkle_root
          = hdr.merkle_root ∧
      (mineGo d target limit adjtime fuel top pre hdr attempt calls fins).header.bits
          = hdr.bits := by
  intro fuel
  induction fuel with
  | zero =>
    intro top pre hdr a c f
    exact ⟨rfl, rfl, rfl, rfl⟩
  | succ fuel ih =>
    intro top pre hdr a c f
    cases top with
    | true =>
      simp only [mineGo, if_true]
      split
      · exact ⟨rfl, rfl, rfl, rfl⟩
      · split
        · split
          · exact ⟨rfl, rfl, rfl, rfl⟩
          · exact ih _ _ _ _ _ _
        · exact ih _ _ _ _ _ _
    | false =>
      simp only [mineGo, Bool.false_eq_true, if_false]
      split
      · exact ⟨rfl, rfl, rfl, rfl⟩
      · split
        · split
          · exact ⟨rfl, rfl, rfl, rfl⟩
          · exact ih _ _ _ _ _ _
        · exact ih _ _ _ _ _ _

/-- C9: whatever the outcome, mine leaves `version`, `prev_block`,
`merkle_root`, and `bits` exactly as they were at entry. -/
theorem mine_frame (d : List Nat → List Nat) (target : List Nat)
    (limit : Nat) (adjtime : Nat → Nat) (fuel : Nat) (hdr : btc_header) :
    (btc_header_mine d target limit adjtime fuel hdr).header.version = hdr.version ∧
    (btc_header_mine d target limit adjtime fuel hdr).header.prev_block = hdr.prev_block ∧
    (btc_header_mine d target limit adjtime fuel hdr).header.merkle_root = hdr.merkle_root ∧
    (btc_header_mine d target limit adjtime fuel hdr).header.bits = hdr.bits :=
  mineGo_frame d target limit adjtime fuel true [] hdr 0 0 0

/-! ## C6: the attempt limit is exact -/

lemma mineGoSpec_limit (d : List Nat → List Nat) (target : List Nat)
    (limit : Nat) (adjtime : Nat → Nat) :
    ∀ (fuel : Nat) (top : Bool) (hdr : btc_header) (attempt calls fins : Nat),
      0 < limit → attempt < limit → limit - attempt ≤ fuel → hdr.nonce < 2 ^ 32 →
      (top = true ∨ (1 ≤ calls ∧ hdr.time = adjtime (calls - 1))) →
      (∃ h a c f,
          mineGoSpec d target limit adjtime fuel top hdr attempt calls fins =
            .found h a c f ∧ f ≤ fins + (limit - attempt)) ∨
      (∃ h c,
          mineGoSpec d target limit adjtime fuel top hdr attempt calls fins =
            .exhausted h limit c (fins + (limit - attempt)) ∧
          h.nonce = (hdr.nonce + (limit - attempt)) % 2 ^ 32 ∧
          1 ≤ c ∧ h.time = adjtime (c - 1)) := by
  intro fuel
  induction fuel with
  | zero =>
    intro top hdr a c f hl ha hf _ _
    omega
  | succ fuel ih =>
    intro top hdr a c f hl ha hf hn hinv
    obtain ⟨ver, pb, mr, tm, bt, nn⟩ := hdr
    cases top with
    | true =>
      simp only [mineGoSpec, if_true]
      split
      case isTrue hcmp =>
        exact Or.inl ⟨_, _, _, _, rfl, by omega⟩
      case isFalse hcmp =>
        split
        case isTrue hal =>
          refine Or.inr ⟨⟨ver, pb, mr, adjtime c, bt, (nn + 1) % 2 ^ 32⟩,
            c + 1, ?_, ?_, ?_, ?_⟩
          · have e1 : limit - a = 1 := by omega
            rw [e1, hal]
          · show (nn + 1) % 2 ^ 32 = (nn + (limit - a)) % 2 ^ 32
            have e1 : limit - a = 1 := by omega
            rw [e1]
          · omega
          · show adjtime c = adjtime (c + 1 - 1)
            rw [Nat.add_sub_cancel]
        case isFalse hal =>
          have hres := ih ((nn + 1) % 2 ^ 32 == 0)
            ⟨ver, pb, mr, adjtime c, bt, (nn + 1) % 2 ^ 32⟩
            (a + 1) (c + 1) (f + 1) hl (by omega) (by omega)
            (Nat.mod_lt _ (by norm_num))
            (Or.inr ⟨by omega, by rw [Nat.add_sub_cancel]⟩)
          rcases hres with ⟨h, a', c', f', heq, hle⟩ | ⟨h, c', heq, hn', hc', ht'⟩
          · exact Or.inl ⟨h, a', c', f', heq, by omega⟩
          · refine Or.inr ⟨h, c', ?_, ?_, hc', ht'⟩
            · rw [show f + (limit - a) = (f + 1) + (limit - (a + 1)) from by omega]
              exact heq
            · rw [hn']
              show ((nn + 1) % 2 ^ 32 + (limit - (a + 1))) % 2 ^ 32 =
                (nn + (limit - a)) % 2 ^ 32
              omega
    | false =>
      rcases hinv with htop | ⟨hc1, htm⟩
      · exact absurd htop (by simp)
      · simp only [mineGoSpec, Bool.false_eq_true, if_false]
        split
        case isTrue hcmp =>
          exact Or.inl ⟨_, _, _, _, rfl, by omega⟩
        case isFalse hcmp =>
          split
          case isTrue hal =>
            refine Or.inr ⟨⟨ver, pb, mr, tm, bt, (nn + 1) % 2 ^ 32⟩,
              c, ?_, ?_, hc1, ?_⟩
            · have e1 : limit - a = 1 := by omega
              rw [e1, hal]
            · show (nn + 1) % 2 ^ 32 = (nn + (limit - a)) % 2 ^ 32
              have e1 : limit - a = 1 := by omega
              rw [e1]
            · exact htm
          case isFalse hal =>
            have hres := ih ((nn + 1) % 2 ^ 32 == 0)
              ⟨ver, pb, mr, tm, bt, (nn + 1) % 2 ^ 32⟩
              (a + 1) c (f + 1) hl (by omega) (by omega)
              (Nat.mod_lt _ (by norm_num))
              (Or.inr ⟨hc1, htm⟩)
            rcases hres with ⟨h, a', c', f', heq, hle⟩ | ⟨h, c', heq, hn', hc', ht'⟩
            · exact Or.inl ⟨h, a', c', f', heq, by omega⟩
            · refine Or.inr ⟨h, c', ?_, ?_, hc', ht'⟩
              · rw [show f + (limit - a) = (f + 1) + (limit - (a + 1)) from by omega]
                exact heq
              · rw [hn']
                show ((nn + 1) % 2 ^ 32 + (limit - (a + 1))) % 2 ^ 32 =
                  (nn + (limit - a)) % 2 ^ 32
                omega

/-- C6: with `limit = k > 0` (and enough fuel, at least `k`, for the model
to run the loop), mine always terminates: either some attempt within the
first `k` finalizations meets the target, or mine returns false having
performed exactly `k` finalizations, with the nonce advanced by exactly `k`
modulo `2^32` and `time` equal to the clock value obtained at the most
recent prefix recomputation. -/
theorem mine_limit_exact (d : List Nat → List Nat) (target : List Nat)
    (adjtime : Nat → Nat) (k fuel : Nat) (hdr : btc_header)
    (hk : 0 < k) (hfuel : k ≤ fuel) (hn : hdr.nonce < 2 ^ 32) :
    (∃ h a c f,
        btc_header_mine d target k adjtime fuel hdr = .found h a c f ∧ f ≤ k) ∨
    (∃ h c,
        btc_header_mine d target k adjtime fuel hdr = .exhausted h k c k ∧
        h.nonce = (hdr.nonce + k) % 2 ^ 32 ∧ 1 ≤ c ∧ h.time = adjtime (c - 1)) := by
  rw [btc_header_mine,
    mineGo_eq_spec d target k adjtime fuel true [] hdr 0 0 0 (Or.inl rfl)]
  have hres := mineGoSpec_limit d target k adjtime fuel true hdr 0 0 0 hk hk
    (by omega) hn (Or.inl rfl)
  simpa using hres

/-- Witness for C6: a digest that never meets the all-zero target, with
`limit = 3`: the run exhausts after exactly 3 finalizations. -/
theorem mine_limit_exact_witness :
    (∃ h a c f,
        btc_header_mine (fun _ => [1]) (List.replicate 32 0) 3 (fun _ => 7) 3
          ⟨0, List.replicate 32 0, List.replicate 32 0, 0, 0, 0⟩ =
        .found h a c f ∧ f ≤ 3) ∨
    (∃ h c,
        btc_header_mine (fun _ => [1]) (List.replicate 32 0) 3 (fun _ => 7) 3
          ⟨0, List.replicate 32 0, List.replicate 32 0, 0, 0, 0⟩ =
        .exhausted h 3 c 3 ∧
        h.nonce = 3 % 2 ^ 32 ∧ 1 ≤ c ∧ h.time = 7) :=
  mine_limit_exact (fun _ => [1]) (List.replicate 32 0) (fun _ => 7) 3 3
    ⟨0, List.replicate 32 0, List.replicate 32 0, 0, 0, 0⟩
    (by norm_num) (le_refl 3) (by decide)

/-! ## Reading: success and failure characterizations -/

lemma take_len (l : List Nat) (n : Nat) (h : l.length = n) : l.take n = l := by
  subst h; exact List.take_length l

lemma drop_len (l : List Nat) (n : Nat) (h : l.length = n) : l.drop n = [] := by
  subst h; exact List.drop_length l

lemma read_success (z : btc_header) (xp : List Nat) (n : Nat) (h : 80 ≤ n) :
    btc_header_read z xp n =
      (true,
       ⟨leVal (xp.take 4),
        (xp.drop 4).take 32,
        ((xp.drop 4).drop 32).take 32,
        leVal ((((xp.drop 4).drop 32).drop 32).take 4),
        leVal (((((xp.drop 4).drop 32).drop 32).drop 4).take 4),
        leVal ((((((xp.drop 4).drop 32).drop 32).drop 4).drop 4).take 4)⟩,
       (((((xp.drop 4).drop 32).drop 32).drop 4).drop 4).drop 4,
       n - 4 - 32 - 32 - 4 - 4 - 4) := by
  have h1 : ¬ n < 4 := by omega
  have h2 : ¬ n - 4 < 32 := by omega
  have h3 : ¬ n - 4 - 32 < 32 := by omega
  have h4 : ¬ n - 4 - 32 - 32 < 4 := by omega
  have h5 : ¬ n - 4 - 32 - 32 - 4 < 4 := by omega
  have h6 : ¬ n - 4 - 32 - 32 - 4 - 4 < 4 := by omega
  simp only [btc_header_read, btc_uint32_read, btc_raw_read, if_neg h1, if_neg h2,
    if_neg h3, if_neg h4, if_neg h5, if_neg h6]

lemma read_short (z : btc_header) (xp : List Nat) (n : Nat) (h : n < 80) :
    btc_header_read z xp n =
      (false,
       { version := if n < 4 then z.version else leVal (xp.take 4),
         prev_block := if n < 36 then z.prev_block else (xp.drop 4).take 32,
         merkle_root := if n < 68 then z.merkle_root else (xp.drop 36).take 32,
         time := if n < 72 then z.time else leVal ((xp.drop 68).take 4),
         bits := if n < 76 then z.bits else leVal ((xp.drop 72).take 4),
         nonce := z.nonce },
       xp.drop (if n < 4 then 0 else if n < 36 then 4 else if n < 68 then 36
         else if n < 72 then 68 else if n < 76 then 72 else 76),
       n - (if n < 4 then 0 else if n < 36 then 4 else if n < 68 then 36
         else if n < 72 then 68 else if n < 76 then 72 else 76)) := by
  by_cases c4 : n < 4
  · simp [btc_header_read, btc_uint32_read, c4, show n < 36 from by omega,
      show n < 68 from by omega, show n < 72 from by omega, show n < 76 from by omega]
  by_cases c36 : n < 36
  · simp [btc_header_read, btc_uint32_read, btc_raw_read, c4, c36,
      show n - 4 < 32 from by omega, show n < 68 from by omega,
      show n < 72 from by omega, show n < 76 from by omega]
  by_cases c68 : n < 68
  · simp [btc_header_read, btc_uint32_read, btc_raw_read, c4, c36, c68,
      show ¬ n - 4 < 32 from by omega, show n - 36 < 32 from by omega,
      show n < 72 from by omega, show n < 76 from by omega,
      List.drop_drop, Nat.sub_sub]
  by_cases c72 : n < 72
  · simp [btc_header_read, btc_uint32_read, btc_raw_read, c4, c36, c68, c72,
      show ¬ n - 4 < 32 from by omega, show ¬ n - 36 < 32 from by omega,
      show n - 68 < 4 from by omega, show n < 76 from by omega,
      List.drop_drop, Nat.sub_sub]
  by_cases c76 : n < 76
  · simp [btc_header_read, btc_uint32_read, btc_raw_read, c4, c36, c68, c72, c76,
      show ¬ n - 4 < 32 from by omega, show ¬ n - 36 < 32 from by omega,
      show ¬ n - 68 < 4 from by omega,
      show n - 72 < 4 from by omega,
      List.drop_drop, Nat.sub_sub]
  · simp [btc_header_read, btc_uint32_read, btc_raw_read, c4, c36, c68, c72, c76,
      show ¬ n - 4 < 32 from by omega, show ¬ n - 36 < 32 from by omega,
      show ¬ n - 68 < 4 from by omega, show ¬ n - 72 < 4 from by omega,
      show n - 76 < 4 from by omega,
      List.drop_drop, Nat.sub_sub]

/-! ## C4: read inverts write -/

/-- C4: reading back the 80-byte buffer written from a header with valid
fields succeeds, reconstructs the header in all six fields, and consumes
exactly 80 bytes (cursor at the end, remaining 0). -/
theorem write_read_roundtrip (z H : btc_header)
    (h1 : H.version < 2 ^ 32) (h2 : H.prev_block.length = 32)
    (h3 : H.merkle_root.length = 32) (h4 : H.time < 2 ^ 32)
    (h5 : H.bits < 2 ^ 32) (h6 : H.nonce < 2 ^ 32) :
    btc_header_read z (btc_header_write [] H) 80 = (true, H, [], 0) := by
  obtain ⟨ver, pb, mr, tm, bt, nn⟩ := H
  replace h1 : ver < 2 ^ 32 := h1
  replace h2 : pb.length = 32 := h2
  replace h3 : mr.length = 32 := h3
  replace h4 : tm < 2 ^ 32 := h4
  replace h5 : bt < 2 ^ 32 := h5
  replace h6 : nn < 2 ^ 32 := h6
  have hB : btc_header_write [] ⟨ver, pb, mr, tm, bt, nn⟩ =
      le32 ver ++ (pb ++ (mr ++ (le32 tm ++ (le32 bt ++ le32 nn)))) := by
    simp [btc_header_write, btc_uint32_write, btc_raw_write]
  rw [hB, read_success _ _ _ (le_refl 80)]
  rw [take_append_of_length _ _ _ (le32_length ver),
    drop_append_of_length _ _ _ (le32_length ver),
    take_append_of_length _ _ _ h2, drop_append_of_length _ _ _ h2,
    take_append_of_length _ _ _ h3, drop_append_of_length _ _ _ h3,
    take_append_of_length _ _ _ (le32_length tm),
    drop_append_of_length _ _ _ (le32_length tm),
    take_append_of_length _ _ _ (le32_length bt),
    drop_append_of_length _ _ _ (le32_length bt),
    take_len _ _ (le32_length nn), drop_len _ _ (le32_length nn),
    leVal_le32, leVal_le32, leVal_le32, leVal_le32,
    Nat.mod_eq_of_lt h1, Nat.mod_eq_of_lt h4, Nat.mod_eq_of_lt h5,
    Nat.mod_eq_of_lt h6]

/-- Witness for C4 at a concrete header. -/
theorem write_read_roundtrip_witness :
    btc_header_read ⟨9, [], [], 9, 9, 9⟩
        (btc_header_write [] ⟨1, List.replicate 32 2, List.replicate 32 3, 4, 5, 6⟩) 80 =
      (true, ⟨1, List.replicate 32 2, List.replicate 32 3, 4, 5, 6⟩, [], 0) :=
  write_read_roundtrip ⟨9, [], [], 9, 9, 9⟩
    ⟨1, List.replicate 32 2, List.replicate 32 3, 4, 5, 6⟩
    (by decide) (by decide) (by decide) (by decide) (by decide) (by decide)

/-! ## C5: boundary behavior of read -/

/-- C5: `read` succeeds exactly when at least 80 bytes remain; on success
it fills all six fields from the bytes, advances the cursor by exactly 80,
and decrements the remaining count by exactly 80, with no content
validation. -/
theorem read_boundary (z : btc_header) (xp : List Nat) (n : Nat) :
    ((btc_header_read z xp n).1 = decide (80 ≤ n)) ∧
    (80 ≤ n → btc_header_read z xp n =
      (true,
       ⟨leVal (xp.take 4), (xp.drop 4).take 32, (xp.drop 36).take 32,
        leVal ((xp.drop 68).take 4), leVal ((xp.drop 72).take 4),
        leVal ((xp.drop 76).take 4)⟩,
       xp.drop 80, n - 80)) := by
  have hsucc : 80 ≤ n → btc_header_read z xp n =
      (true,
       ⟨leVal (xp.take 4), (xp.drop 4).take 32, (xp.drop 36).take 32,
        leVal ((xp.drop 68).take 4), leVal ((xp.drop 72).take 4),
        leVal ((xp.drop 76).take 4)⟩,
       xp.drop 80, n - 80) := by
    intro hge
    rw [read_success z xp n hge]
    simp [List.drop_drop, Nat.sub_sub]
  refine ⟨?_, hsucc⟩
  by_cases hge : 80 ≤ n
  · rw [hsucc hge]; simp [hge]
  · rw [read_short z xp n (by omega)]; simp [hge]

/-- Witness for C5 on a 100-byte buffer. -/
theorem read_boundary_witness :
    ((btc_header_read ⟨9, [], [], 9, 9, 9⟩ (List.range 100) 100).1 = decide (80 ≤ 100)) ∧
    (btc_header_read ⟨9, [], [], 9, 9, 9⟩ (List.range 100) 100 =
      (true,
       ⟨leVal ((List.range 100).take 4), ((List.range 100).drop 4).take 32,
        ((List.range 100).drop 36).take 32, leVal (((List.range 100).drop 68).take 4),
        leVal (((List.range 100).drop 72).take 4),
        leVal (((List.range 100).drop 76).take 4)⟩,
       (List.range 100).drop 80, 20)) :=
  ⟨(read_boundary ⟨9, [], [], 9, 9, 9⟩ (List.range 100) 100).1,
   (read_boundary ⟨9, [], [], 9, 9, 9⟩ (List.range 100) 100).2 (by norm_num)⟩

/-! ## C10: partial mutation on short reads -/

/-- C10: when `read` fails, exactly the fields before the first field whose
bytes were insufficient are overwritten with parsed values; the failing
field and all later fields retain their prior contents, and the cursor has
advanced (remaining decreased) by exactly the total size of the parsed
fields — 0, 4, 36, 68, 72, or 76 bytes. -/
theorem read_short_state (z : btc_header) (xp : List Nat) (n : Nat) (h : n < 80) :
    btc_header_read z xp n =
      (false,
       { version := if n < 4 then z.version else leVal (xp.take 4),
         prev_block := if n < 36 then z.prev_block else (xp.drop 4).take 32,
         merkle_root := if n < 68 then z.merkle_root else (xp.drop 36).take 32,
         time := if n < 72 then z.time else leVal ((xp.drop 68).take 4),
         bits := if n < 76 then z.bits else leVal ((xp.drop 72).take 4),
         nonce := z.nonce },
       xp.drop (if n < 4 then 0 else if n < 36 then 4 else if n < 68 then 36
         else if n < 72 then 68 else if n < 76 then 72 else 76),
       n - (if n < 4 then 0 else if n < 36 then 4 else if n < 68 then 36
         else if n < 72 then 68 else if n < 76 then 72 else 76)) :=
  read_short z xp n h

/-- Witness for C10 with 70 remaining bytes: version, prev_block, and
merkle_root are overwritten, time/bits/nonce retain their prior values,
and exactly 68 bytes were consumed. -/
theorem read_short_state_witness :
    btc_header_read ⟨9, [7], [8], 9, 9, 9⟩ (List.range 80) 70 =
      (false,
       ⟨leVal ((List.range 80).take 4), ((List.range 80).drop 4).take 32,
        ((List.range 80).drop 36).take 32, 9, 9, 9⟩,
       (List.range 80).drop 68, 2) :=
  read_short_state ⟨9, [7], [8], 9, 9, 9⟩ (List.range 80) 70 (by norm_num)

end Mako
